import Mathlib

/-!
Shallow embedding of the `fool` minimal version-control tool (main.go).

Go strings are modelled as `List Char`; file contents, file names and all
persisted text use the same representation.  The ambient filesystem state a
command runs against is a `FoolFS` record: the `.fool` marker directory, the
contents of `.fool/index` and `.fool/log` (absent files are `none`), the
snapshot object tree, and the working directory.  Each CLI command becomes a
pure function from a `FoolFS` to a new `FoolFS` together with an outcome
value describing what the command printed and how it exited.  Control-file
writes (index, log, meta) are modelled as succeeding; the per-file snapshot
copy can fail (an unreadable working file), which is the failure mode the
commit loop of the source handles.
-/

namespace Fool

/-- Go strings, modelled as lists of characters. -/
abbrev Str := List Char

/-- Model of the `dropCR` step of `bufio.ScanLines`: strip one trailing
carriage return from a scanned line. -/
def dropCR (l : Str) : Str :=
  if l.getLast? = some '\r' then l.dropLast else l

/-- Worker for `splitLinesCh`: first argument is the remaining input, second
is the current line accumulated in reverse. -/
def splitLinesAux : Str → Str → List Str
  | [], acc => if acc = [] then [] else [dropCR acc.reverse]
  | c :: rest, acc =>
      if c = '\n' then dropCR acc.reverse :: splitLinesAux rest []
      else splitLinesAux rest (c :: acc)

/-- Model of `splitLines` from main.go (a `bufio.Scanner` with the default
`ScanLines` split): newline-terminated lines without their terminator, a
final unterminated line kept, no empty token after a trailing newline, and
the empty input yielding no lines. -/
def splitLinesCh (s : Str) : List Str := splitLinesAux s []

/-- Serialize an index line list the way `cmdAdd` writes it: each entry
followed by a newline (`fmt.Fprintln`). -/
def joinLines : List Str → Str
  | [] => []
  | l :: ls => (l ++ ['\n']) ++ joinLines ls

/-- UTF-8 encoding of one character, as byte values (what `[]byte(s)` sees). -/
def utf8Char (c : Char) : List Nat :=
  let n := c.toNat
  if n < 128 then [n]
  else if n < 2048 then [192 + (n >>> 6), 128 + (n % 64)]
  else if n < 65536 then [224 + (n >>> 12), 128 + ((n >>> 6) % 64), 128 + (n % 64)]
  else [240 + (n >>> 18), 128 + ((n >>> 12) % 64), 128 + ((n >>> 6) % 64), 128 + (n % 64)]

/-- UTF-8 bytes of a whole string. -/
def utf8Str (s : Str) : List Nat :=
  s.foldr (fun c acc => utf8Char c ++ acc) []

/-- Truncate to 32 bits. -/
def w32 (n : Nat) : Nat := n % 4294967296

/-- Rotate a 32-bit word left by `b` bits. -/
def rotl32 (b n : Nat) : Nat := w32 ((n <<< b) ||| (n >>> (32 - b)))

/-- Big-endian byte expansion: `k` bytes of `n`. -/
def beBytes (k n : Nat) : List Nat :=
  (List.range k).map (fun i => (n >>> (8 * (k - 1 - i))) % 256)

/-- SHA-1 padding: append 0x80, zero bytes to 56 mod 64, then the 64-bit
big-endian bit length. -/
def sha1Pad (m : List Nat) : List Nat :=
  let L := m.length
  let k := (120 - ((L + 1) % 64)) % 64
  m ++ [128] ++ List.replicate k 0 ++ beBytes 8 ((8 * L) % 18446744073709551616)

/-- Fuel-driven worker for `toChunks`; the fuel only bounds the recursion
depth (one unit is enough for 64 bytes, so the byte count suffices). -/
def toChunksF : Nat → List Nat → List (List Nat)
  | 0, _ => []
  | _ + 1, [] => []
  | n + 1, l => l.take 64 :: toChunksF n (l.drop 64)

/-- Split a byte list into 64-byte chunks. -/
def toChunks (l : List Nat) : List (List Nat) := toChunksF l.length l

/-- Group bytes into big-endian 32-bit words. -/
def bytesToWords : List Nat → List Nat
  | b0 :: b1 :: b2 :: b3 :: rest =>
      (((b0 * 256 + b1) * 256 + b2) * 256 + b3) :: bytesToWords rest
  | _ => []

/-- Running SHA-1 state (five 32-bit words). -/
structure SHA1St where
  h0 : Nat
  h1 : Nat
  h2 : Nat
  h3 : Nat
  h4 : Nat
deriving DecidableEq

/-- Extend a 16-word block schedule by `k` further words. -/
def sha1Extend (ws : List Nat) : Nat → List Nat
  | 0 => ws
  | Nat.succ k =>
      let prev := sha1Extend ws k
      prev ++ [rotl32 1 ((prev.getD (prev.length - 3) 0) ^^^ (prev.getD (prev.length - 8) 0) ^^^
        (prev.getD (prev.length - 14) 0) ^^^ (prev.getD (prev.length - 16) 0))]

/-- One SHA-1 round: state (a,b,c,d,e), schedule word `w`, round index `t`. -/
def sha1Round (a b c d e w t : Nat) : Nat × Nat × Nat × Nat × Nat :=
  let f :=
    if t < 20 then (b &&& c) ||| ((b ^^^ 4294967295) &&& d)
    else if t < 40 then b ^^^ c ^^^ d
    else if t < 60 then (b &&& c) ||| (b &&& d) ||| (c &&& d)
    else b ^^^ c ^^^ d
  let k :=
    if t < 20 then 1518500249
    else if t < 40 then 1859775393
    else if t < 60 then 2400959708
    else 3395469782
  (w32 (rotl32 5 a + f + e + k + w), a, rotl32 30 b, c, d)

/-- Compress one 16-word chunk into the running state. -/
def sha1Compress (st : SHA1St) (ws : List Nat) : SHA1St :=
  let sched := sha1Extend ws 64
  let fin := (sched.foldl
    (fun (acc : (Nat × Nat × Nat × Nat × Nat) × Nat) w =>
      (sha1Round acc.1.1 acc.1.2.1 acc.1.2.2.1 acc.1.2.2.2.1 acc.1.2.2.2.2 w acc.2, acc.2 + 1))
    ((st.h0, st.h1, st.h2, st.h3, st.h4), 0)).1
  ⟨w32 (st.h0 + fin.1), w32 (st.h1 + fin.2.1), w32 (st.h2 + fin.2.2.1),
   w32 (st.h3 + fin.2.2.2.1), w32 (st.h4 + fin.2.2.2.2)⟩

/-- SHA-1 digest of a byte sequence. -/
def sha1Digest (m : List Nat) : SHA1St :=
  ((toChunks (sha1Pad m)).map bytesToWords).foldl sha1Compress
    ⟨1732584193, 4023233417, 2562383102, 271733878, 3285377520⟩

/-- Lowercase hexadecimal digit. -/
def hexDigitCh (n : Nat) : Char :=
  if n < 10 then Char.ofNat (48 + n) else Char.ofNat (87 + n)

/-- Eight lowercase hex digits of a 32-bit word, most significant first. -/
def hex8 (n : Nat) : Str :=
  (List.range 8).map (fun i => hexDigitCh ((n >>> (4 * (7 - i))) % 16))

/-- Model of `fmt.Sprintf("%x", h.Sum(nil))`: the 40 lowercase hex characters
of the SHA-1 digest of the bytes. -/
def sha1HexCh (m : List Nat) : Str :=
  hex8 (sha1Digest m).h0 ++ hex8 (sha1Digest m).h1 ++ hex8 (sha1Digest m).h2 ++
    hex8 (sha1Digest m).h3 ++ hex8 (sha1Digest m).h4

/-- Model of `genCommitID` from main.go: the first 8 hex characters of the
SHA-1 digest of the timestamp concatenated with the message. -/
def genCommitID (ts msg : Str) : Str := (sha1HexCh (utf8Str (ts ++ msg))).take 8

/-- The filesystem state a `fool` command runs against.  `index` and `log`
are the contents of `.fool/index` and `.fool/log` (`none` when the file is
absent or unreadable).  `objects` records every file written beneath
`.fool/objects` as (commit id, relative path, bytes); a later entry for the
same key overwrites (as `os.Create` truncates).  `objDirs` records the
snapshot directories created by `os.MkdirAll`.  `workdir` lists the entries
of the working directory: `some c` is a file readable with content `c`,
`none` a file that exists (so `os.Stat` succeeds) but cannot be opened. -/
structure FoolFS where
  foolDir : Bool
  index : Option Str
  log : Option Str
  objects : List (Str × Str × Str)
  objDirs : List Str
  workdir : List (Str × Option Str)
deriving DecidableEq

/-- Whether `os.Stat` succeeds on a working-directory path. -/
def fileExists (st : FoolFS) (f : Str) : Bool :=
  (st.workdir.find? (fun p => decide (p.1 = f))).isSome

/-- Whether `os.Open` + `io.Copy` succeed on a working-directory path, and
with which bytes. -/
def readWd (st : FoolFS) (f : Str) : Option Str :=
  match st.workdir.find? (fun p => decide (p.1 = f)) with
  | some (_, some c) => some c
  | _ => none

/-- Read the snapshot copy stored under `objects/<id>/<f>` (the last write
wins, as `os.Create` truncates an existing file). -/
def readObj (st : FoolFS) (id f : Str) : Option Str :=
  ((st.objects.filter (fun e => decide (e.1 = id ∧ e.2.1 = f))).getLast?).map (fun e => e.2.2)

/-- Outcome of `cmdInit`. -/
inductive InitOutcome where
  | alreadyInitialized
  | initialized
deriving DecidableEq

/-- Model of `cmdInit`: create the `.fool` marker unless it already exists
(the `os.Mkdir` error path is not modelled; it only fires on I/O failure). -/
def cmdInit (st : FoolFS) : FoolFS × InitOutcome :=
  if st.foolDir then (st, .alreadyInitialized)
  else ({ st with foolDir := true }, .initialized)

/-- Outcome of `cmdAdd`.  `notARepo` stands for `ensureRepo` printing its
error and calling `os.Exit(1)`. -/
inductive AddOutcome where
  | notARepo
  | usage
  | fileNotFound (f : Str)
  | alreadyStaged (f : Str)
  | added (f : Str)
deriving DecidableEq

/-- Model of `cmdAdd` from main.go.  Only `args[0]` is consulted.  The Go
loop over the old index lines returns early with the already-staged report
when it meets the path, and otherwise collects the nonempty lines; that is
`if file is a member then already-staged else keep the nonempty lines`.  The
rewritten index is every kept line plus the new path, each newline
terminated.  `indexLines` is the line list `cmdAdd` reads back from the
index file (an unreadable or absent index reads as no lines). -/
def indexLines (st : FoolFS) : List Str :=
  match st.index with
  | none => []
  | some d => splitLinesCh d

/-- Model of `cmdAdd` from main.go; see `indexLines` for the index read. -/
def cmdAdd (st : FoolFS) (args : List Str) : FoolFS × AddOutcome :=
  if st.foolDir = false then (st, .notARepo)
  else
    match args with
    | [] => (st, .usage)
    | file :: _ =>
      if fileExists st file = false then (st, .fileNotFound file)
      else
        if file ∈ indexLines st then (st, .alreadyStaged file)
        else
          let staged := (indexLines st).filter (fun l => decide (l ≠ [])) ++ [file]
          ({ st with index := some (joinLines staged) }, .added file)

/-- Outcome of `cmdCommit`. -/
inductive CommitOutcome where
  | notARepo
  | usageError
  | emptyIndex
  | noFilesCommitted
  | committed (n : Nat) (id : Str)
deriving DecidableEq

/-- Go `%v` rendering of a string slice: the entries joined by single
spaces. -/
def joinSp : List Str → Str
  | [] => []
  | [x] => x
  | x :: xs => x ++ ' ' :: joinSp xs

/-- Go `%v` rendering including the brackets. -/
def goFilesList (files : List Str) : Str := '[' :: joinSp files ++ [']']

/-- The `meta.txt` text `cmdCommit` writes into the snapshot directory. -/
def metaText (id time msg : Str) (files : List Str) : Str :=
  "commit: ".data ++ id ++ '\n' :: "date: ".data ++ time ++ '\n' :: "message: ".data ++ msg ++
    '\n' :: "files: ".data ++ goFilesList files ++ ['\n']

/-- The block `cmdCommit` appends to `.fool/log` (ending in a blank line). -/
def logEntryText (id time msg : Str) (files : List Str) : Str :=
  "commit ".data ++ id ++ '\n' :: "Date: ".data ++ time ++ '\n' :: "Message: ".data ++ msg ++
    '\n' :: "Files: ".data ++ goFilesList files ++ '\n' :: ['\n']

/-- The per-file copy loop of `cmdCommit`: empty lines are skipped, an
unopenable source is skipped with a warning, a readable source is copied
into the snapshot.  Returns the committed file list and the object entries
written, both in iteration order. -/
def copyLoop (st : FoolFS) (id : Str) : List Str → List Str × List (Str × Str × Str)
  | [] => ([], [])
  | f :: fs =>
    let rest := copyLoop st id fs
    if f = [] then rest
    else
      match readWd st f with
      | some c => (f :: rest.1, (id, f, c) :: rest.2)
      | none => rest

/-- Model of `cmdCommit` from main.go.  `msg` is the value of the `-m` flag
(the flag layer parsed it); `now` is the RFC3339 rendering of the current
UTC time.  `ensureRepo` runs first; an empty message is a usage error; an
absent or empty index aborts with the empty-staging report; the snapshot
directory is created before the copy loop; with zero copied files the commit
stops before metadata, log and index writes. -/
def cmdCommit (st : FoolFS) (msg now : Str) : FoolFS × CommitOutcome :=
  if st.foolDir = false then (st, .notARepo)
  else if msg = [] then (st, .usageError)
  else
    match st.index with
    | none => (st, .emptyIndex)
    | some d =>
      if d = [] then (st, .emptyIndex)
      else
        let files := splitLinesCh d
        let id := genCommitID now msg
        let committed := (copyLoop st id files).1
        let written := (copyLoop st id files).2
        let stDir : FoolFS := { st with objDirs := st.objDirs ++ [id], objects := st.objects ++ written }
        if committed = [] then (stDir, .noFilesCommitted)
        else
          ({ stDir with
              objects := stDir.objects ++ [(id, "meta.txt".data, metaText id now msg committed)],
              log := some ((st.log.getD []) ++ logEntryText id now msg committed),
              index := some [] },
            .committed committed.length id)

/-- Model of `splitLogEntries` from main.go.  The Go loop scans an index
window of two characters for a blank line (two consecutive newlines), cuts
the entry before it, and resumes two characters later; because the scan
index advances by one while the entry start jumps by two, a third
consecutive newline makes the slice bounds cross and the program panics —
that is the `none` result.  First argument accumulates the current entry in
reverse, second the finished entries. -/
def sleAux (cur : Str) (acc : List Str) : Str → Option (List Str)
  | [] => some (if cur = [] then acc else acc ++ [cur.reverse])
  | [c] => sleAux (c :: cur) acc []
  | c1 :: c2 :: rest =>
    if c1 = '\n' ∧ c2 = '\n' then
      if rest.head? = some '\n' then none
      else sleAux [] (acc ++ [cur.reverse]) rest
    else sleAux (c1 :: cur) acc (c2 :: rest)

/-- Split the log text into its blank-line-separated entries (`none` models
the slice-bounds panic on three consecutive newlines). -/
def splitLogEntries (s : Str) : Option (List Str) := sleAux [] [] s

/-- The `len(line) > 7 && line[:7] == "commit "` test of the log parser. -/
def isCommitLine (l : Str) : Bool :=
  decide (7 < l.length) && decide (l.take 7 = "commit ".data)

/-- The `len(line) > 7 && line[:7] == "Files: "` test of the log parser. -/
def isFilesLine (l : Str) : Bool :=
  decide (7 < l.length) && decide (l.take 7 = "Files: ".data)

/-- The delimiter characters of the bracketed file list. -/
def isSepChar (c : Char) : Bool :=
  c = '[' || c = ']' || c = ' ' || c = ','

/-- Insert a name into the parsed file set unless already present (a Go map
keyed by the name). -/
def insertName (l : List Str) (x : Str) : List Str :=
  if x ∈ l then l else l ++ [x]

/-- The character loop the log parser runs over the text after `Files: `:
non-delimiter characters extend the current name (accumulated here in
reverse), a delimiter flushes a nonempty current name into the set, and a
trailing name is flushed at the end. -/
def parseFilesAux : Str → Str → List Str → List Str
  | [], fname, files =>
      if fname = [] then files else insertName files fname.reverse
  | c :: rest, fname, files =>
      if isSepChar c then
        if fname = [] then parseFilesAux rest [] files
        else parseFilesAux rest [] (insertName files fname.reverse)
      else parseFilesAux rest (c :: fname) files

/-- One line of the last log entry, folded into the (files, commit id)
accumulator exactly as the loop body of `getLastCommitFilesAndID` does:
a `Files: ` line extends the file set, a `commit ` line overwrites the id. -/
def parseEntryLine (acc : List Str × Str) (line : Str) : List Str × Str :=
  let files := if isFilesLine line then parseFilesAux (line.drop 7) [] acc.1 else acc.1
  let id := if isCommitLine line then line.drop 7 else acc.2
  (files, id)

/-- Model of `getLastCommitFilesAndID` from main.go: an absent or empty log
yields the empty file set and empty id; otherwise the last blank-line
separated entry is scanned line by line for its `Files: [...]` list and its
`commit ` id.  `none` propagates the log-splitting panic. -/
def getLastCommitFilesAndID (log : Option Str) : Option (List Str × Str) :=
  match log with
  | none => some ([], [])
  | some d =>
    if d = [] then some ([], [])
    else
      match splitLogEntries d with
      | none => none
      | some entries =>
        if entries = [] then some ([], [])
        else some ((splitLinesCh (entries.getLastD [])).foldl parseEntryLine ([], []))

/-- Outcome of `cmdLog`: the blocks are listed in the order printed. -/
inductive LogOutcome where
  | notARepo
  | noCommits
  | printed (blocks : List Str)
deriving DecidableEq

/-- Model of `cmdLog` from main.go: an absent or empty log reports that
there are no commits; otherwise the entries are printed last first,
skipping empty ones.  `none` models the log-splitting panic. -/
def cmdLog (st : FoolFS) : Option LogOutcome :=
  if st.foolDir = false then some .notARepo
  else
    match st.log with
    | none => some .noCommits
    | some d =>
      if d = [] then some .noCommits
      else (splitLogEntries d).map (fun es => .printed (es.reverse.filter (fun e => decide (e ≠ []))))

/-- The staged-file set `cmdStatus` builds from the index: nonempty lines,
deduplicated (a Go map), in first-appearance order. -/
def stagedList (st : FoolFS) : List Str :=
  match st.index with
  | none => []
  | some d =>
    if d = [] then []
    else (splitLinesCh d).foldl (fun acc f => if f = [] then acc else insertName acc f) []

/-- The modification test of `cmdStatus` for one file of the last commit:
staged files are skipped, both the working copy and the snapshot copy must
be readable, and their bytes must differ; an unreadable side yields
`false`. -/
def isModifiedB (st : FoolFS) (lastID : Str) (staged : List Str) (f : Str) : Bool :=
  if f ∈ staged then false
  else
    match readWd st f, readObj st lastID f with
    | some w, some c => decide (w ≠ c)
    | _, _ => false

/-- The three sections `cmdStatus` prints. -/
structure StatusReport where
  staged : List Str
  untracked : List Str
  modified : List Str
deriving DecidableEq

/-- Outcome of `cmdStatus`. -/
inductive StatusOutcome where
  | notARepo
  | report (r : StatusReport)
deriving DecidableEq

/-- Model of `cmdStatus` from main.go: staged files from the index,
untracked working-directory entries (not staged, not in the last commit,
the repository markers excluded), and the modified files of the last
commit.  `none` models the log-splitting panic inside
`getLastCommitFilesAndID`. -/
def cmdStatus (st : FoolFS) : Option StatusOutcome :=
  if st.foolDir = false then some .notARepo
  else
    match getLastCommitFilesAndID st.log with
    | none => none
    | some (lastFiles, lastID) =>
      let staged := stagedList st
      let untracked := (st.workdir.map Prod.fst).filter
        (fun n => decide (n ≠ ".fool".data ∧ n ≠ ".git".data ∧ n ∉ staged ∧ n ∉ lastFiles))
      let modified := lastFiles.filter (isModifiedB st lastID staged)
      some (.report ⟨staged, untracked, modified⟩)

/-- Outcome of one `main` invocation (which command ran and its result). -/
inductive MainOutcome where
  | usage
  | versionShown
  | helpShown
  | commandHelp (c : Str)
  | unknownCommand (c : Str)
  | ranInit (o : InitOutcome)
  | ranAdd (o : AddOutcome)
  | ranCommit (o : CommitOutcome)
  | ranLog (o : LogOutcome)
  | ranStatus (o : StatusOutcome)
deriving DecidableEq

/-- Which outcomes stand for `ensureRepo` having printed
`Error: not a fool repository` and called `os.Exit(1)`. -/
def isRepoFailure : MainOutcome → Bool
  | .ranAdd .notARepo => true
  | .ranCommit .notARepo => true
  | .ranLog .notARepo => true
  | .ranStatus .notARepo => true
  | _ => false

/-- The process exit status of an invocation: `1` exactly for the
repository-not-initialized guard (the unmodelled `os.Mkdir` failure of
`init` and the flag-package usage exits aside). -/
def exitCode (o : MainOutcome) : Nat := if isRepoFailure o then 1 else 0

/-- Whether a command argument list starts with the per-command help flag. -/
def helpFlag : List Str → Bool
  | [] => false
  | a :: _ => decide (a = "--help".data) || decide (a = "-h".data)

/-- The `-m` flag value the `flag` package hands `cmdCommit` (empty when the
flag is missing). -/
def parseMsgFlag : List Str → Str
  | a :: m :: _ => if a = "-m".data then m else []
  | _ => []

/-- Model of `main` from main.go: global help and version first, then the
command switch, each command checking its own leading help flag before
running.  `now` abstracts the commit timestamp; `none` models the
log-parser panic. -/
def mainRun (now : Str) (argv : List Str) (st : FoolFS) : Option (FoolFS × MainOutcome) :=
  match argv with
  | [] => some (st, .usage)
  | cmd :: args =>
    if cmd = "--help".data ∨ cmd = "-h".data then some (st, .usage)
    else if cmd = "version".data then some (st, .versionShown)
    else if cmd = "help".data then some (st, .helpShown)
    else if cmd = "init".data then
      if helpFlag args then some (st, .commandHelp cmd)
      else some ((cmdInit st).1, .ranInit (cmdInit st).2)
    else if cmd = "add".data then
      if helpFlag args then some (st, .commandHelp cmd)
      else some ((cmdAdd st args).1, .ranAdd (cmdAdd st args).2)
    else if cmd = "commit".data then
      if helpFlag args then some (st, .commandHelp cmd)
      else some ((cmdCommit st (parseMsgFlag args) now).1, .ranCommit (cmdCommit st (parseMsgFlag args) now).2)
    else if cmd = "log".data then
      if helpFlag args then some (st, .commandHelp cmd)
      else (cmdLog st).map (fun o => (st, .ranLog o))
    else if cmd = "status".data then
      if helpFlag args then some (st, .commandHelp cmd)
      else (cmdStatus st).map (fun o => (st, .ranStatus o))
    else some (st, .unknownCommand cmd)

/-- The log text after a sequence of commit appends: each block followed by
the blank-line separator. -/
def logOfBlocks : List Str → Str
  | [] => []
  | b :: bs => b ++ '\n' :: '\n' :: logOfBlocks bs

/-- No two consecutive newlines anywhere in the text. -/
def nnfree : Str → Bool
  | [] => true
  | [_] => true
  | c1 :: c2 :: rest => if c1 = '\n' ∧ c2 = '\n' then false else nnfree (c2 :: rest)

/-! Helper lemmas about the commit copy loop. -/

theorem copyLoop_fst_eq_filter (st : FoolFS) (id : Str) (files : List Str) :
    (copyLoop st id files).1 =
      files.filter (fun f => decide (f ≠ []) && (readWd st f).isSome) := by
  induction files with
  | nil => rfl
  | cons f fs ih =>
    by_cases hf : f = []
    · simp [copyLoop, hf, ih]
    · rcases hr : readWd st f with _ | c <;> simp [copyLoop, hf, hr, ih]

theorem copyLoop_fst_nil_iff (st : FoolFS) (id : Str) (files : List Str) :
    (copyLoop st id files).1 = [] ↔ ∀ f ∈ files, f = [] ∨ readWd st f = none := by
  rw [copyLoop_fst_eq_filter, List.filter_eq_nil_iff]
  constructor
  · intro h f hf
    have hb := h f hf
    by_cases hfe : f = []
    · exact Or.inl hfe
    · refine Or.inr ?_
      cases hr : readWd st f with
      | none => rfl
      | some c => exact absurd (by simp [hfe, hr]) hb
  · intro h f hf
    rcases h f hf with hfe | hr
    · simp [hfe]
    · simp [hr]

theorem copyLoop_snd_nil_of_fst_nil (st : FoolFS) (id : Str) (files : List Str)
    (h : (copyLoop st id files).1 = []) : (copyLoop st id files).2 = [] := by
  induction files with
  | nil => simp [copyLoop]
  | cons f fs ih =>
    simp only [copyLoop] at h ⊢
    by_cases hf : f = []
    · simp only [if_pos hf] at h ⊢
      exact ih h
    · simp only [if_neg hf] at h ⊢
      rcases hr : readWd st f with _ | c
      · simp only [hr] at h ⊢
        exact ih h
      · simp only [hr] at h
        cases h

/-- Claim C7.  Commit with an absent or empty index fails with the
empty-staging report (printed as `Nothing to commit`) and performs no log or
object writes: the repository state is returned unchanged. -/
theorem commit_empty_index_unchanged (st : FoolFS) (msg now : Str)
    (hfool : st.foolDir = true) (hmsg : msg ≠ [])
    (hidx : st.index = none ∨ st.index = some []) :
    cmdCommit st msg now = (st, .emptyIndex) := by
  rcases hidx with h | h <;> simp [cmdCommit, hfool, hmsg, h]

/-- Witness for C7 at a concrete state. -/
theorem commit_empty_index_unchanged_witness :
    cmdCommit ⟨true, none, none, [], [], []⟩ "m".data "t".data =
      (⟨true, none, none, [], [], []⟩, .emptyIndex) :=
  commit_empty_index_unchanged ⟨true, none, none, [], [], []⟩ "m".data "t".data rfl
    (by decide) (Or.inl rfl)

/-- The working directory of the C2 scenario: the repository is initialized,
nothing is staged, and the three files of the repository test
`TestAddMultipleFiles` exist and are readable. -/
def addManyState : FoolFS :=
  ⟨true, none, none, [], [],
    [("foo1.txt".data, some "one".data), ("foo2.txt".data, some "two".data),
     ("foo3.txt".data, some "three".data)]⟩

/-- Claim C2 (refuted, code bug).  `fool add foo1.txt foo2.txt foo3.txt`
stages only `args[0]`: the resulting index holds `foo1.txt` alone, one added
report is produced, and the remaining two listed paths are neither staged
nor reported — contradicting the spec and the repository test
`TestAddMultipleFiles`. -/
theorem add_stages_only_first_path :
    cmdAdd addManyState ["foo1.txt".data, "foo2.txt".data, "foo3.txt".data] =
      ({ addManyState with index := some "foo1.txt\n".data }, .added "foo1.txt".data) ∧
    "foo2.txt".data ∉ splitLinesCh "foo1.txt\n".data ∧
    "foo3.txt".data ∉ splitLinesCh "foo1.txt\n".data := by
  decide

theorem cmdCommit_no_files_eq (st : FoolFS) (msg now d : Str)
    (hfool : st.foolDir = true) (hmsg : msg ≠ []) (hidx : st.index = some d)
    (hd : d ≠ [])
    (hfail : ∀ f ∈ splitLinesCh d, f = [] ∨ readWd st f = none) :
    cmdCommit st msg now =
      ({ st with objDirs := st.objDirs ++ [genCommitID now msg] }, .noFilesCommitted) := by
  have hc1 : (copyLoop st (genCommitID now msg) (splitLinesCh d)).1 = [] :=
    (copyLoop_fst_nil_iff _ _ _).mpr hfail
  have hc2 := copyLoop_snd_nil_of_fst_nil st (genCommitID now msg) (splitLinesCh d) hc1
  simp [cmdCommit, hfool, hmsg, hidx, hd, hc1, hc2]

/-- Claim C10.  When the commit pipeline reaches the copy loop and every
per-file copy fails, the only change to the state is the freshly created
(and empty) snapshot directory `objects/<id>`: the object tree, index and
log are exactly those of the starting state, and the no-files report is
returned. -/
theorem commit_all_copies_fail_frame (st : FoolFS) (msg now d : Str)
    (hfool : st.foolDir = true) (hmsg : msg ≠ []) (hidx : st.index = some d)
    (hd : d ≠ [])
    (hfail : ∀ f ∈ splitLinesCh d, f = [] ∨ readWd st f = none) :
    cmdCommit st msg now =
      ({ st with objDirs := st.objDirs ++ [genCommitID now msg] }, .noFilesCommitted) :=
  cmdCommit_no_files_eq st msg now d hfool hmsg hidx hd hfail

/-- Witness for C10: one staged path whose working file exists but cannot be
opened. -/
theorem commit_all_copies_fail_frame_witness :
    cmdCommit ⟨true, some "a.txt\n".data, some "old-log".data, [], [], [("a.txt".data, none)]⟩
        "m".data "t".data =
      ({ foolDir := true, index := some "a.txt\n".data, log := some "old-log".data,
         objects := [], objDirs := [genCommitID "t".data "m".data],
         workdir := [("a.txt".data, none)] }, .noFilesCommitted) := by
  have h := commit_all_copies_fail_frame
    ⟨true, some "a.txt\n".data, some "old-log".data, [], [], [("a.txt".data, none)]⟩
    "m".data "t".data "a.txt\n".data rfl (by decide) rfl (by decide) (by decide)
  simpa using h

/-- Claim C1.  The commit operation clears the staging index exactly when at
least one staged path was successfully copied into the snapshot; with zero
copies it reports that no files were committed, writes no metadata object,
appends nothing to the log and leaves the index unchanged. -/
theorem commit_clears_index_iff (st : FoolFS) (msg now d : Str)
    (hfool : st.foolDir = true) (hmsg : msg ≠ []) (hidx : st.index = some d)
    (hd : d ≠ []) :
    ((cmdCommit st msg now).1.index = some [] ↔
      ∃ f ∈ splitLinesCh d, f ≠ [] ∧ readWd st f ≠ none) ∧
    ((∀ f ∈ splitLinesCh d, f = [] ∨ readWd st f = none) →
      (cmdCommit st msg now).2 = .noFilesCommitted ∧
      (cmdCommit st msg now).1.index = st.index ∧
      (cmdCommit st msg now).1.log = st.log ∧
      (cmdCommit st msg now).1.objects = st.objects) := by
  by_cases hc : (copyLoop st (genCommitID now msg) (splitLinesCh d)).1 = []
  · have hall := (copyLoop_fst_nil_iff st (genCommitID now msg) (splitLinesCh d)).mp hc
    have heq := cmdCommit_no_files_eq st msg now d hfool hmsg hidx hd hall
    rw [heq]
    constructor
    · show st.index = some [] ↔ _
      rw [hidx]
      constructor
      · intro h
        exact absurd (Option.some.inj h) hd
      · rintro ⟨f, hf, hne, hr⟩
        rcases hall f hf with h | h
        · exact absurd h hne
        · exact absurd h hr
    · intro _
      exact ⟨rfl, rfl, rfl, rfl⟩
  · have hex : ∃ f ∈ splitLinesCh d, f ≠ [] ∧ readWd st f ≠ none := by
      by_contra hno
      push_neg at hno
      exact hc ((copyLoop_fst_nil_iff st (genCommitID now msg) (splitLinesCh d)).mpr
        (fun f hf => by
          by_cases hfe : f = []
          · exact Or.inl hfe
          · exact Or.inr (hno f hf hfe)))
    constructor
    · simp only [cmdCommit, hfool, hmsg, hidx, hd]
      simp only [Bool.true_eq_false, if_false, reduceIte, hc]
      simp [hex]
    · intro hall
      exact absurd ((copyLoop_fst_nil_iff st (genCommitID now msg) (splitLinesCh d)).mpr hall) hc

/-- Witness for C1: a readable staged file makes the discharged instance
concrete; the index is cleared and a copy indeed existed. -/
theorem commit_clears_index_iff_witness :
    (cmdCommit ⟨true, some "a.txt\n".data, none, [], [], [("a.txt".data, some "x".data)]⟩
        "m".data "t".data).1.index = some [] :=
  (commit_clears_index_iff
    ⟨true, some "a.txt\n".data, none, [], [], [("a.txt".data, some "x".data)]⟩
    "m".data "t".data "a.txt\n".data rfl (by decide) rfl (by decide)).1.mpr
    ⟨"a.txt".data, by decide, by decide, by decide⟩

/-! Helper lemmas about line splitting, used for the staging claims. -/

theorem mem_dropCR {a : Char} {l : Str} (h : a ∈ dropCR l) : a ∈ l := by
  unfold dropCR at h
  split at h
  · exact List.dropLast_subset l h
  · exact h

theorem splitLinesAux_no_nl (s : Str) : ∀ acc, '\n' ∉ acc →
    ∀ l ∈ splitLinesAux s acc, '\n' ∉ l := by
  induction s with
  | nil =>
    intro acc hacc l hl
    simp only [splitLinesAux] at hl
    split at hl
    · cases hl
    · rcases List.mem_singleton.mp hl with rfl
      intro hmem
      exact hacc (List.mem_reverse.mp (mem_dropCR hmem))
  | cons c rest ih =>
    intro acc hacc l hl
    simp only [splitLinesAux] at hl
    split at hl
    · rcases List.mem_cons.mp hl with rfl | hl
      · intro hmem
        exact hacc (List.mem_reverse.mp (mem_dropCR hmem))
      · exact ih [] (by simp) l hl
    · refine ih (c :: acc) ?_ l hl
      intro hmem
      rcases List.mem_cons.mp hmem with h | h
      · rename_i hne
        exact hne h.symm
      · exact hacc h

theorem splitLinesAux_scan (xs : Str) (hxs : '\n' ∉ xs) :
    ∀ t acc, splitLinesAux (xs ++ t) acc = splitLinesAux t (xs.reverse ++ acc) := by
  induction xs with
  | nil => intro t acc; simp
  | cons c xs ih =>
    intro t acc
    have hc : c ≠ '\n' := fun h => hxs (h ▸ List.mem_cons_self c xs)
    have hxs2 : '\n' ∉ xs := fun h => hxs (List.mem_cons_of_mem c h)
    simp only [List.cons_append, splitLinesAux, if_neg (fun h => hc h), List.append_eq]
    rw [ih hxs2 t (c :: acc)]
    simp

theorem splitLinesAux_flush (xs : Str) (hxs : '\n' ∉ xs) (t : Str) (acc : Str) :
    splitLinesAux (xs ++ '\n' :: t) acc =
      dropCR (acc.reverse ++ xs) :: splitLinesAux t [] := by
  rw [splitLinesAux_scan xs hxs ('\n' :: t) acc]
  simp [splitLinesAux]

theorem mem_splitLines_joinLines (f : Str) (hnl : '\n' ∉ f) (hcr : dropCR f = f) :
    ∀ ls : List Str, (∀ l ∈ ls, '\n' ∉ l) →
    f ∈ splitLinesCh (joinLines (ls ++ [f])) := by
  intro ls
  induction ls with
  | nil =>
    intro _
    show f ∈ splitLinesAux (joinLines [f]) []
    have : joinLines [f] = f ++ '\n' :: [] := by simp [joinLines]
    rw [this, splitLinesAux_flush f hnl [] []]
    simp [hcr, splitLinesAux]
  | cons l ls ih =>
    intro hls
    show f ∈ splitLinesAux (joinLines ((l :: ls) ++ [f])) []
    have : joinLines ((l :: ls) ++ [f]) = l ++ '\n' :: joinLines (ls ++ [f]) := by
      simp [joinLines]
    rw [this, splitLinesAux_flush l (hls l (List.mem_cons_self l ls)) _ []]
    exact List.mem_cons_of_mem _ (ih (fun x hx => hls x (List.mem_cons_of_mem l hx)))

/-- Claim C3.  Adding a path that is already staged reports the
already-staged outcome without touching the state, and adding the same
existing path twice in a row leaves the index reached after the first add
unchanged: the second call returns the intermediate state as is, together
with the already-staged report. -/
theorem add_idempotent (st : FoolFS) (f : Str)
    (hfool : st.foolDir = true) (hex : fileExists st f = true)
    (hnl : '\n' ∉ f) (hcr : f.getLast? ≠ some '\r') :
    cmdAdd (cmdAdd st [f]).1 [f] = ((cmdAdd st [f]).1, .alreadyStaged f) ∧
    (f ∈ indexLines st → cmdAdd st [f] = (st, .alreadyStaged f)) := by
  have hdrop : dropCR f = f := by simp [dropCR, hcr]
  have hsecond : f ∈ indexLines st → cmdAdd st [f] = (st, .alreadyStaged f) := by
    intro hmem
    simp [cmdAdd, hfool, hex, hmem]
  refine ⟨?_, hsecond⟩
  by_cases hmem : f ∈ indexLines st
  · rw [hsecond hmem]
    exact hsecond hmem
  · rcases hst2 : cmdAdd st [f] with ⟨st2, o⟩
    have hfirst : cmdAdd st [f] =
        ({ st with index := some (joinLines
            ((indexLines st).filter (fun l => decide (l ≠ [])) ++ [f])) }, .added f) := by
      simp [cmdAdd, hfool, hex, hmem]
    rw [hst2] at hfirst
    have hst2eq : st2 = { st with index := some (joinLines
        ((indexLines st).filter (fun l => decide (l ≠ [])) ++ [f])) } :=
      congrArg Prod.fst hfirst
    have hfool2 : st2.foolDir = true := by rw [hst2eq]; exact hfool
    have hex2 : fileExists st2 f = true := by
      rw [hst2eq]
      exact hex
    have hmem2 : f ∈ indexLines st2 := by
      rw [hst2eq]
      show f ∈ splitLinesCh (joinLines ((indexLines st).filter (fun l => decide (l ≠ [])) ++ [f]))
      refine mem_splitLines_joinLines f hnl hdrop _ ?_
      intro l hl
      have hl2 := List.mem_of_mem_filter hl
      unfold indexLines at hl2
      revert hl2
      split
      · intro h; cases h
      · intro h
        exact splitLinesAux_no_nl _ [] (by simp) l h
    simp [cmdAdd, hfool2, hex2, hmem2]

/-- Witness for C3: a fresh repository with one readable file. -/
theorem add_idempotent_witness :
    cmdAdd (cmdAdd ⟨true, none, none, [], [], [("a.txt".data, some "x".data)]⟩ ["a.txt".data]).1
        ["a.txt".data] =
      ((cmdAdd ⟨true, none, none, [], [], [("a.txt".data, some "x".data)]⟩ ["a.txt".data]).1,
        .alreadyStaged "a.txt".data) :=
  (add_idempotent ⟨true, none, none, [], [], [("a.txt".data, some "x".data)]⟩ "a.txt".data
    rfl (by decide) (by decide) (by decide)).1

/-! Helper lemmas about the commit id. -/

theorem cmdCommit_committed_id {st : FoolFS} {msg now : Str} {n : Nat} {id : Str}
    (h : (cmdCommit st msg now).2 = .committed n id) : id = genCommitID now msg := by
  unfold cmdCommit at h
  by_cases h1 : st.foolDir = false
  · simp [h1] at h
  · rw [if_neg h1] at h
    by_cases h2 : msg = []
    · simp [h2] at h
    · rw [if_neg h2] at h
      rcases hidx : st.index with _ | d <;> rw [hidx] at h
      · simp at h
      · dsimp only at h
        by_cases h3 : d = []
        · simp [h3] at h
        · rw [if_neg h3] at h
          by_cases h4 : (copyLoop st (genCommitID now msg) (splitLinesCh d)).1 = []
          · simp [h4] at h
          · rw [if_neg h4] at h
            simp only [] at h
            injection h with hn hid
            exact hid.symm

theorem hex8_length (n : Nat) : (hex8 n).length = 8 := by
  simp [hex8]

theorem sha1HexCh_length (m : List Nat) : (sha1HexCh m).length = 40 := by
  simp [sha1HexCh, hex8_length]

theorem mem_hex8_hex {c : Char} {n : Nat} (h : c ∈ hex8 n) :
    c ∈ "0123456789abcdef".data := by
  simp only [hex8, List.mem_map, List.mem_range] at h
  rcases h with ⟨i, _, rfl⟩
  have hlt : (n >>> (4 * (7 - i))) % 16 < 16 := Nat.mod_lt _ (by norm_num)
  revert hlt
  generalize (n >>> (4 * (7 - i))) % 16 = m
  intro hlt
  interval_cases m <;> decide

theorem mem_sha1HexCh_hex {c : Char} {m : List Nat} (h : c ∈ sha1HexCh m) :
    c ∈ "0123456789abcdef".data := by
  simp only [sha1HexCh, List.mem_append] at h
  rcases h with (((h | h) | h) | h) | h <;> exact mem_hex8_hex h

/-- Claim C5.  Whenever two commit invocations with the same timestamp and
message succeed — over arbitrary states, so in particular over arbitrary
staged file contents — they produce the same id, and that id is the first 8
hex characters of the 40-hex-character (160-bit) digest of the timestamp
concatenated with the message. -/
theorem commit_id_from_time_and_message (st₁ st₂ : FoolFS) (msg now : Str)
    (n₁ n₂ : Nat) (id₁ id₂ : Str)
    (h₁ : (cmdCommit st₁ msg now).2 = .committed n₁ id₁)
    (h₂ : (cmdCommit st₂ msg now).2 = .committed n₂ id₂) :
    id₁ = id₂ ∧
    id₁ = (sha1HexCh (utf8Str (now ++ msg))).take 8 ∧
    (sha1HexCh (utf8Str (now ++ msg))).length = 40 ∧
    id₁.length = 8 ∧
    ∀ c ∈ id₁, c ∈ "0123456789abcdef".data := by
  have e₁ := cmdCommit_committed_id h₁
  have e₂ := cmdCommit_committed_id h₂
  subst e₁
  refine ⟨e₂.symm, rfl, sha1HexCh_length _, ?_, ?_⟩
  · simp [genCommitID, List.length_take, sha1HexCh_length]
  · intro c hc
    exact mem_sha1HexCh_hex (List.take_subset _ _ hc)

set_option maxRecDepth 40000 in
/-- Witness for C5: two states whose staged file holds different bytes give
the same concrete id. -/
theorem commit_id_from_time_and_message_witness :
    "a547db31".data = "a547db31".data ∧
    "a547db31".data = (sha1HexCh (utf8Str ("t".data ++ "m".data))).take 8 ∧
    (sha1HexCh (utf8Str ("t".data ++ "m".data))).length = 40 ∧
    ("a547db31".data : Str).length = 8 ∧
    ∀ c ∈ ("a547db31".data : Str), c ∈ "0123456789abcdef".data :=
  commit_id_from_time_and_message
    ⟨true, some "a.txt\n".data, none, [], [], [("a.txt".data, some "x".data)]⟩
    ⟨true, some "a.txt\n".data, none, [], [], [("a.txt".data, some "yyy".data)]⟩
    "m".data "t".data 1 1 "a547db31".data "a547db31".data (by decide) (by decide)

/-! Helper lemmas for the status reconciler. -/

theorem isModifiedB_eq_true_iff (st : FoolFS) (lastID : Str) (staged : List Str) (f : Str) :
    isModifiedB st lastID staged f = true ↔
      f ∉ staged ∧ ∃ w c, readWd st f = some w ∧ readObj st lastID f = some c ∧ w ≠ c := by
  unfold isModifiedB
  by_cases hs : f ∈ staged
  · simp [hs]
  · simp only [if_neg hs]
    rcases hw : readWd st f with _ | w <;> rcases ho : readObj st lastID f with _ | c <;>
      simp [hs, hw, ho]

/-- Claim C4.  The status command lists a file as modified exactly when it
belongs to the last commit file set, is not staged, and both its working
copy and its snapshot copy under `objects/<last-id>/<path>` are readable
with different bytes; a file with an unreadable working or snapshot copy is
silently left off the modified list. -/
theorem status_modified_iff (st : FoolFS) (lastFiles : List Str) (lastID : Str)
    (hfool : st.foolDir = true)
    (hparse : getLastCommitFilesAndID st.log = some (lastFiles, lastID)) :
    ∃ r : StatusReport, cmdStatus st = some (.report r) ∧
      r.staged = stagedList st ∧
      ∀ f : Str, f ∈ r.modified ↔
        (f ∈ lastFiles ∧ f ∉ stagedList st ∧
         ∃ w c, readWd st f = some w ∧ readObj st lastID f = some c ∧ w ≠ c) := by
  refine ⟨⟨stagedList st,
    (st.workdir.map Prod.fst).filter
      (fun n => decide (n ≠ ".fool".data ∧ n ≠ ".git".data ∧ n ∉ stagedList st ∧ n ∉ lastFiles)),
    lastFiles.filter (isModifiedB st lastID (stagedList st))⟩, ?_, rfl, ?_⟩
  · simp [cmdStatus, hfool, hparse]
  · intro f
    rw [List.mem_filter, isModifiedB_eq_true_iff]

/-- Witness for C4: one committed file, its snapshot differing from its
working copy, and an empty staging area. -/
theorem status_modified_iff_witness :
    ∃ r : StatusReport,
      cmdStatus ⟨true, none, some "commit abcd1234\nFiles: [a.txt]\n\n".data,
          [("abcd1234".data, "a.txt".data, "old".data)], ["abcd1234".data],
          [("a.txt".data, some "new".data)]⟩ = some (.report r) ∧
      r.staged = stagedList ⟨true, none, some "commit abcd1234\nFiles: [a.txt]\n\n".data,
          [("abcd1234".data, "a.txt".data, "old".data)], ["abcd1234".data],
          [("a.txt".data, some "new".data)]⟩ ∧
      ∀ f : Str, f ∈ r.modified ↔
        (f ∈ ["a.txt".data] ∧
         f ∉ stagedList ⟨true, none, some "commit abcd1234\nFiles: [a.txt]\n\n".data,
            [("abcd1234".data, "a.txt".data, "old".data)], ["abcd1234".data],
            [("a.txt".data, some "new".data)]⟩ ∧
         ∃ w c, readWd ⟨true, none, some "commit abcd1234\nFiles: [a.txt]\n\n".data,
              [("abcd1234".data, "a.txt".data, "old".data)], ["abcd1234".data],
              [("a.txt".data, some "new".data)]⟩ f = some w ∧
            readObj ⟨true, none, some "commit abcd1234\nFiles: [a.txt]\n\n".data,
              [("abcd1234".data, "a.txt".data, "old".data)], ["abcd1234".data],
              [("a.txt".data, some "new".data)]⟩ "abcd1234".data f = some c ∧ w ≠ c) :=
  status_modified_iff
    ⟨true, none, some "commit abcd1234\nFiles: [a.txt]\n\n".data,
      [("abcd1234".data, "a.txt".data, "old".data)], ["abcd1234".data],
      [("a.txt".data, some "new".data)]⟩
    ["a.txt".data] "abcd1234".data rfl (by decide)

/-! Helper lemmas for the repository state reader. -/

theorem foldl_parseEntryLine_id (lines : List Str) :
    ∀ fs0 : List Str, ∀ id0 : Str, (∀ l ∈ lines, isCommitLine l = false) →
    (lines.foldl parseEntryLine (fs0, id0)).2 = id0 := by
  induction lines with
  | nil => intro fs0 id0 _; rfl
  | cons l ls ih =>
    intro fs0 id0 h
    have hl : isCommitLine l = false := h l (List.mem_cons_self l ls)
    show (ls.foldl parseEntryLine (parseEntryLine (fs0, id0) l)).2 = id0
    have : parseEntryLine (fs0, id0) l =
        (if isFilesLine l then parseFilesAux (l.drop 7) [] fs0 else fs0, id0) := by
      simp [parseEntryLine, hl]
    rw [this]
    exact ih _ id0 (fun x hx => h x (List.mem_cons_of_mem l hx))

theorem foldl_parseEntryLine_files (lines : List Str) :
    ∀ fs0 : List Str, ∀ id0 : Str,
    (lines.foldl parseEntryLine (fs0, id0)).1 =
      (lines.filter isFilesLine).foldl (fun fs l => parseFilesAux (l.drop 7) [] fs) fs0 := by
  induction lines with
  | nil => intro fs0 id0; rfl
  | cons l ls ih =>
    intro fs0 id0
    by_cases hf : isFilesLine l = true
    · rw [List.filter_cons_of_pos hf]
      show (ls.foldl parseEntryLine (parseEntryLine (fs0, id0) l)).1 = _
      have : parseEntryLine (fs0, id0) l =
          (parseFilesAux (l.drop 7) [] fs0, if isCommitLine l then l.drop 7 else id0) := by
        simp [parseEntryLine, hf]
      rw [this, ih, List.foldl_cons]
    · rw [List.filter_cons_of_neg (by simpa using hf)]
      show (ls.foldl parseEntryLine (parseEntryLine (fs0, id0) l)).1 = _
      have : parseEntryLine (fs0, id0) l =
          (fs0, if isCommitLine l then l.drop 7 else id0) := by
        simp [parseEntryLine, hf]
      rw [this, ih]

theorem parseFilesAux_scan (nm : Str) (hnm : ∀ c ∈ nm, isSepChar c = false) :
    ∀ t rev fs, parseFilesAux (nm ++ t) rev fs = parseFilesAux t (nm.reverse ++ rev) fs := by
  induction nm with
  | nil => intro t rev fs; simp
  | cons c nm ih =>
    intro t rev fs
    have hc : isSepChar c = false := hnm c (List.mem_cons_self c nm)
    have hnm2 : ∀ x ∈ nm, isSepChar x = false := fun x hx => hnm x (List.mem_cons_of_mem c hx)
    simp only [List.cons_append, parseFilesAux, hc, Bool.false_eq_true, if_false, reduceIte,
      List.append_eq]
    rw [ih hnm2 t (c :: rev) fs]
    simp

theorem foldl_insertName (names : List Str) :
    ∀ fs : List Str, names.Nodup → (∀ nm ∈ names, nm ∉ fs) →
    names.foldl insertName fs = fs ++ names := by
  induction names with
  | nil => intro fs _ _; simp
  | cons n ns ih =>
    intro fs hnd hfresh
    have h1 : insertName fs n = fs ++ [n] := by
      simp [insertName, hfresh n (List.mem_cons_self n ns)]
    show ns.foldl insertName (insertName fs n) = fs ++ n :: ns
    rw [h1, ih (fs ++ [n]) (List.Nodup.of_cons hnd) ?_]
    · simp
    · intro m hm
      simp only [List.mem_append, List.mem_singleton]
      rintro (h | rfl)
      · exact hfresh m (List.mem_cons_of_mem n hm) h
      · exact (List.nodup_cons.mp hnd).1 hm

theorem parseFilesAux_names (names : List Str)
    (h : ∀ nm ∈ names, nm ≠ [] ∧ ∀ c ∈ nm, isSepChar c = false) :
    ∀ fs, parseFilesAux (joinSp names ++ [']']) [] fs = names.foldl insertName fs := by
  induction names with
  | nil =>
    intro fs
    simp [joinSp, parseFilesAux, isSepChar]
  | cons x rest ih =>
    intro fs
    have hx := h x (List.mem_cons_self x rest)
    have hrest : ∀ nm ∈ rest, nm ≠ [] ∧ ∀ c ∈ nm, isSepChar c = false :=
      fun nm hnm => h nm (List.mem_cons_of_mem x hnm)
    cases rest with
    | nil =>
      show parseFilesAux (x ++ [']']) [] fs = insertName fs x
      rw [parseFilesAux_scan x hx.2 [']'] [] fs]
      have hsep : isSepChar ']' = true := by decide
      have hxr : x.reverse = [] ↔ False := by simp [hx.1]
      simp only [parseFilesAux, List.append_nil, hsep, hxr, if_true, if_false, reduceIte,
        List.reverse_reverse]
    | cons y rest2 =>
      have hjoin : joinSp (x :: y :: rest2) = x ++ ' ' :: joinSp (y :: rest2) := rfl
      rw [hjoin]
      have harr : (x ++ ' ' :: joinSp (y :: rest2)) ++ [']'] =
          x ++ (' ' :: (joinSp (y :: rest2) ++ [']'])) := by simp
      rw [harr, parseFilesAux_scan x hx.2 _ [] fs]
      have hsep : isSepChar ' ' = true := by decide
      have hxr : x.reverse = [] ↔ False := by simp [hx.1]
      simp only [parseFilesAux, List.append_nil, hsep, hxr, if_true, if_false, reduceIte,
        List.reverse_reverse, List.foldl_cons]
      exact ih hrest (insertName fs x)

/-- Claim C6.  With an absent or empty log the repository state reader
returns the empty file set and the empty commit id.  Otherwise it splits
the log on blank lines, takes the most recent entry and — for an entry in
the format the commit engine writes, whose first line is `commit <id>` and
which carries one `Files: [...]` line — returns exactly the bracketed,
space-separated filenames of that line together with the id after
`commit ` on the first line. -/
theorem last_commit_files_and_id (d : Str) (entries : List Str) (cid : Str)
    (rest : List Str) (names : List Str)
    (hd : d ≠ [])
    (hsplit : splitLogEntries d = some entries)
    (hne : entries ≠ [])
    (hlines : splitLinesCh (entries.getLastD []) = ("commit ".data ++ cid) :: rest)
    (hcid : cid ≠ [])
    (hnocommit : ∀ l ∈ rest, isCommitLine l = false)
    (hfiles : rest.filter isFilesLine = [("Files: ".data ++ goFilesList names)])
    (hnames : ∀ nm ∈ names, nm ≠ [] ∧ ∀ c ∈ nm, isSepChar c = false)
    (hnodup : names.Nodup) :
    getLastCommitFilesAndID (some d) = some (names, cid) ∧
    getLastCommitFilesAndID none = some ([], []) ∧
    getLastCommitFilesAndID (some []) = some ([], []) := by
  refine ⟨?_, rfl, rfl⟩
  have hlen7 : ("commit ".data : Str).length = 7 := rfl
  have htake : (("commit ".data ++ cid) : Str).take 7 = "commit ".data := by
    rw [← hlen7]
    exact List.take_left _ _
  have hdrop : (("commit ".data ++ cid) : Str).drop 7 = cid := by
    rw [← hlen7]
    exact List.drop_left _ _
  have hisc : isCommitLine ("commit ".data ++ cid) = true := by
    simp only [isCommitLine, htake, Bool.and_eq_true, decide_eq_true_eq]
    refine ⟨?_, trivial⟩
    rw [List.length_append, hlen7]
    have := List.length_pos.mpr hcid
    omega
  have hisf : isFilesLine ("commit ".data ++ cid) = false := by
    simp only [isFilesLine, htake]
    simp
  have hstep : parseEntryLine ([], []) ("commit ".data ++ cid) = ([], cid) := by
    simp only [parseEntryLine, hisf, hisc, Bool.false_eq_true, if_false, if_true, reduceIte, hdrop]
  unfold getLastCommitFilesAndID
  dsimp only
  rw [if_neg hd, hsplit]
  simp only [hne, if_neg hne, hlines]
  rw [List.foldl_cons, hstep]
  have hfst := foldl_parseEntryLine_files rest [] cid
  rw [hfiles] at hfst
  have hflen : ("Files: ".data : Str).length = 7 := rfl
  have hfdrop : (("Files: ".data ++ goFilesList names) : Str).drop 7 = goFilesList names := by
    rw [← hflen]
    exact List.drop_left _ _
  rw [List.foldl_cons, List.foldl_nil, hfdrop] at hfst
  have hbody : parseFilesAux (goFilesList names) [] [] = names := by
    show parseFilesAux ('[' :: (joinSp names ++ [']'])) [] [] = names
    simp only [parseFilesAux, isSepChar]
    simp only [if_true, reduceIte]
    rw [parseFilesAux_names names hnames []]
    rw [foldl_insertName names [] hnodup (by simp)]
    simp
  rw [hbody] at hfst
  have hsnd := foldl_parseEntryLine_id rest [] cid hnocommit
  have hpair : List.foldl parseEntryLine ([], cid) rest = (names, cid) :=
    Prod.ext hfst hsnd
  rw [hpair]
  simp

/-- Witness for C6: the log of one concrete commit with two files. -/
theorem last_commit_files_and_id_witness :
    getLastCommitFilesAndID
        (some "commit abcd1234\nDate: t\nMessage: m\nFiles: [a.txt b.txt]\n\n".data) =
      some (["a.txt".data, "b.txt".data], "abcd1234".data) :=
  (last_commit_files_and_id
    "commit abcd1234\nDate: t\nMessage: m\nFiles: [a.txt b.txt]\n\n".data
    ["commit abcd1234\nDate: t\nMessage: m\nFiles: [a.txt b.txt]".data]
    "abcd1234".data
    ["Date: t".data, "Message: m".data, "Files: [a.txt b.txt]".data]
    ["a.txt".data, "b.txt".data]
    (by decide) (by decide) (by decide) (by decide) (by decide) (by decide) (by decide)
    (by decide) (by decide)).1

/-! Helper lemmas for the log splitter. -/

theorem sleAux_scan (b : Str) : ∀ t cur acc, nnfree (b ++ t.take 1) = true →
    sleAux cur acc (b ++ t) = sleAux (b.reverse ++ cur) acc t := by
  induction b with
  | nil => intro t cur acc _; simp
  | cons x b ih =>
    intro t cur acc h
    cases b with
    | nil =>
      cases t with
      | nil => simp [sleAux]
      | cons y s =>
        have hcond : ¬(x = '\n' ∧ y = '\n') := by
          intro hc
          simp only [List.cons_append, List.nil_append, List.take_cons, List.take_zero,
            nnfree, if_pos hc] at h
          cases h
        show sleAux cur acc (x :: y :: s) = sleAux ([x].reverse ++ cur) acc (y :: s)
        simp only [sleAux, if_neg hcond]
        simp
    | cons z b2 =>
      have hcond : ¬(x = '\n' ∧ z = '\n') := by
        intro hc
        simp only [List.cons_append, nnfree, if_pos hc] at h
        cases h
      have htail : nnfree ((z :: b2) ++ t.take 1) = true := by
        simp only [List.cons_append, nnfree] at h
        rw [if_neg hcond] at h
        simpa using h
      show sleAux cur acc (x :: ((z :: b2) ++ t)) = _
      simp only [List.cons_append, sleAux, if_neg hcond, List.append_eq]
      rw [show z :: (b2 ++ t) = (z :: b2) ++ t from rfl, ih t (x :: cur) acc htail]
      simp

theorem sleAux_flush (b : Str) (rest : Str) (acc : List Str)
    (hb : nnfree (b ++ ['\n']) = true) (hrest : rest.head? ≠ some '\n') :
    sleAux [] acc (b ++ '\n' :: '\n' :: rest) = sleAux [] (acc ++ [b]) rest := by
  have hsc := sleAux_scan b ('\n' :: '\n' :: rest) [] acc (by simpa using hb)
  rw [hsc]
  simp only [sleAux, if_pos (And.intro rfl rfl)]
  rw [if_neg hrest]
  simp

theorem sleAux_logOfBlocks (blocks : List Str) :
    ∀ acc, (∀ b ∈ blocks, b ≠ [] ∧ nnfree (b ++ ['\n']) = true ∧ b.head? ≠ some '\n') →
    sleAux [] acc (logOfBlocks blocks) = some (acc ++ blocks) := by
  induction blocks with
  | nil => intro acc _; simp [logOfBlocks, sleAux]
  | cons b bs ih =>
    intro acc h
    have hb := h b (List.mem_cons_self b bs)
    show sleAux [] acc (b ++ '\n' :: '\n' :: logOfBlocks bs) = _
    rw [sleAux_flush b _ acc hb.2.1 ?_]
    · rw [ih (acc ++ [b]) (fun x hx => h x (List.mem_cons_of_mem _ hx))]
      simp
    · cases bs with
      | nil => simp [logOfBlocks]
      | cons b2 bs2 =>
        have hb2 := h b2 (by simp)
        show (logOfBlocks (b2 :: bs2)).head? ≠ some '\n'
        cases b2 with
        | nil => exact absurd rfl hb2.1
        | cons c cs =>
          simpa [logOfBlocks] using hb2.2.2

/-- Claim C8.  With an absent or empty log the history command reports that
there are no commits; otherwise it splits the log into its blank-line
separated entries and prints them verbatim, newest first — the exact
reverse of the order in which the commit engine appended them. -/
theorem log_prints_newest_first (st : FoolFS) (blocks : List Str)
    (hfool : st.foolDir = true) :
    ((st.log = none ∨ st.log = some []) → cmdLog st = some .noCommits) ∧
    (st.log = some (logOfBlocks blocks) →
     (∀ b ∈ blocks, b ≠ [] ∧ nnfree (b ++ ['\n']) = true ∧ b.head? ≠ some '\n') →
     blocks ≠ [] →
     cmdLog st = some (.printed blocks.reverse)) := by
  constructor
  · rintro (h | h) <;> simp [cmdLog, hfool, h]
  · intro hlog hwf hne
    have hsplit : splitLogEntries (logOfBlocks blocks) = some blocks := by
      unfold splitLogEntries
      rw [sleAux_logOfBlocks blocks [] hwf]
      simp
    have hdne : logOfBlocks blocks ≠ [] := by
      cases blocks with
      | nil => exact absurd rfl hne
      | cons b bs => simp [logOfBlocks]
    have hfilter : blocks.reverse.filter (fun e => decide (e ≠ [])) = blocks.reverse := by
      rw [List.filter_eq_self]
      intro a ha
      have := (hwf a (List.mem_reverse.mp ha)).1
      simpa using this
    simp only [cmdLog, hfool, Bool.true_eq_false, if_false, reduceIte, hlog]
    rw [if_neg hdne, hsplit]
    simp [hfilter]
    intro a ha
    exact (hwf a ha).1

/-- Witness for C8: a log holding two commit entries in append order. -/
theorem log_prints_newest_first_witness :
    cmdLog ⟨true, none,
        some (logOfBlocks ["commit aa\nMessage: one".data, "commit bb\nMessage: two".data]),
        [], [], []⟩ =
      some (.printed ["commit bb\nMessage: two".data, "commit aa\nMessage: one".data]) :=
  (log_prints_newest_first
    ⟨true, none,
      some (logOfBlocks ["commit aa\nMessage: one".data, "commit bb\nMessage: two".data]),
      [], [], []⟩
    ["commit aa\nMessage: one".data, "commit bb\nMessage: two".data] rfl).2
    rfl (by decide) (by decide)

/-- The filesystem state of an uninitialized directory. -/
def uninitFS : FoolFS := ⟨false, none, none, [], [], []⟩

/-- Claim C9 (counterexample).  In an uninitialized directory, `fool add
--help` bypasses the repository guard: it prints the command help and exits
with status 0 rather than printing the not-a-repository error and
terminating with a non-zero status. -/
theorem help_flag_bypasses_repo_guard :
    mainRun "t".data ["add".data, "--help".data] uninitFS =
      some (uninitFS, .commandHelp "add".data) ∧
    exitCode (.commandHelp "add".data) = 0 ∧
    uninitFS.foolDir = false := by
  decide

/-- Claim C9 (amended).  Every `add`, `commit`, `log` or `status`
invocation whose first argument is not the per-command help flag requires
the `.fool` marker: when it is absent the command ends in the
`ensureRepo` failure — the not-a-repository error printed and the process
terminated with exit status 1 — with the state untouched and nothing else
done. -/
theorem repo_guard_for_commands (st : FoolFS) (now cmd : Str) (args : List Str)
    (hfool : st.foolDir = false)
    (hcmd : cmd = "add".data ∨ cmd = "commit".data ∨ cmd = "log".data ∨
      cmd = "status".data)
    (hnohelp : helpFlag args = false) :
    ∃ o : MainOutcome, mainRun now (cmd :: args) st = some (st, o) ∧
      isRepoFailure o = true ∧ exitCode o = 1 := by
  rcases hcmd with rfl | rfl | rfl | rfl
  · exact ⟨.ranAdd .notARepo,
      by simp +decide [mainRun, hnohelp, cmdAdd, hfool], rfl, rfl⟩
  · exact ⟨.ranCommit .notARepo,
      by simp +decide [mainRun, hnohelp, cmdCommit, hfool], rfl, rfl⟩
  · exact ⟨.ranLog .notARepo,
      by simp +decide [mainRun, hnohelp, cmdLog, hfool], rfl, rfl⟩
  · exact ⟨.ranStatus .notARepo,
      by simp +decide [mainRun, hnohelp, cmdStatus, hfool], rfl, rfl⟩

/-- Witness for C9 (amended) at a concrete invocation. -/
theorem repo_guard_for_commands_witness :
    ∃ o : MainOutcome,
      mainRun "t".data ["status".data] uninitFS = some (uninitFS, o) ∧
      isRepoFailure o = true ∧ exitCode o = 1 :=
  repo_guard_for_commands uninitFS "t".data "status".data [] rfl
    (Or.inr (Or.inr (Or.inr rfl))) rfl

end Fool
